import Mathlib

/-!
Shallow embedding of the tam C library (arena allocator, growable vector,
hidden-header string, byte slices, open-addressing hash map) together with
proofs about the claims of its specification.

Bytes are modelled as natural numbers (the value of the C char, 0..255).
Pointers into buffers are modelled positionally: a slice stores the list of
bytes from its data pointer onward, through the terminating null byte of the
underlying allocation, so that the libc scanning functions (strcspn, strspn)
can be modelled faithfully.  Fallible or process-terminating operations
(assert failures, fatal out-of-memory reports, nontermination of the probe
loop) are modelled with Option: none is the divergent outcome.
-/

/-- Byte content of a Lean string literal, used to write concrete test
inputs. Each char becomes its code point, matching the C byte values for
the ASCII inputs used here. -/
def strBytes (s : String) : List Nat := s.toList.map (fun c => c.toNat)

/-! ## Slices (src/slices.h)

A `tam_slice_t` is `{ int len; const char *buf; }`.  `len` is kept as an
Int because the C field is an int and negative indices are part of the
interface.  `buf` holds the bytes from the data pointer to the end of the
underlying null-terminated allocation (inclusive of the final 0). -/

structure Slice where
  len : Int
  buf : List Nat
deriving DecidableEq, Repr

/-- Models tam_get_slice_index: j = i >= 0 ? i : len + i, then
assert(0 <= j && j <= len).  A failed assert is none. -/
def tam_get_slice_index (i len : Int) : Option Int :=
  let j := if 0 ≤ i then i else len + i
  if 0 ≤ j ∧ j ≤ len then some j else none

/-- Models tam_sl_idx: s.buf[tam_get_slice_index(i, s.len)].  The byte read
is in bounds of the underlying buffer whenever the buffer list covers index
j (which holds for every slice built over a real allocation); reads past
the modelled buffer default to 0. -/
def tam_sl_idx (s : Slice) (i : Int) : Option Nat :=
  (tam_get_slice_index i s.len).map (fun j => s.buf.getD j.toNat 0)

/-- Models tam_reslice: normalize both bounds, assert(i <= j), return
tam_slice_n(s.buf + i, j - i). -/
def tam_reslice (s : Slice) (i j : Int) : Option Slice := do
  let a ← tam_get_slice_index i s.len
  let b ← tam_get_slice_index j s.len
  if a ≤ b then some ⟨b - a, s.buf.drop a.toNat⟩ else none

/-- Models tam_slice_prefix (the name is shortened here):
tam_slice_n(s.buf, tam_get_slice_index(i, s.len)). -/
def tam_slice_upto (s : Slice) (i : Int) : Option Slice :=
  (tam_get_slice_index i s.len).map (fun j => ⟨j, s.buf⟩)

/-- Models tam_slice_suffix (the name is shortened here):
tam_slice_n(s.buf + j, s.len - j) with j the normalized index. -/
def tam_slice_from (s : Slice) (i : Int) : Option Slice :=
  (tam_get_slice_index i s.len).map (fun j => ⟨s.len - j, s.buf.drop j.toNat⟩)

/-- Models strcspn(buf, reject): the number of leading bytes of the
null-terminated buffer that are neither 0 nor in reject. -/
def cspnBuf (buf : List Nat) (reject : List Nat) : Nat :=
  (buf.takeWhile (fun b => !(b == 0) && !(reject.contains b))).length

/-- Models strspn(buf, accept): the number of leading bytes of the
null-terminated buffer that are in accept (the terminating 0 is never in
accept for the call sites modelled here). -/
def spnBuf (buf : List Nat) (accept : List Nat) : Nat :=
  (buf.takeWhile (fun b => accept.contains b)).length

/-- Models tam_sl_cspan: idx = strcspn(s.buf, reject), clamped to s.len. -/
def tam_sl_cspan (s : Slice) (reject : List Nat) : Int :=
  let idx : Int := cspnBuf s.buf reject
  if idx > s.len then s.len else idx

/-- Models tam_sl_span: idx = strspn(s.buf, accept), clamped to s.len. -/
def tam_sl_span (s : Slice) (accept : List Nat) : Int :=
  let idx : Int := spnBuf s.buf accept
  if idx > s.len then s.len else idx

/-- Models tam_slice_tok.  The C function mutates its input slice; here the
returned pair is (token, advanced slice).  The internal
assert(token.len + suffix.len == s.len) and the asserts inside the index
normalizations are modelled by Option. -/
def tam_slice_tok (s : Slice) (delimiters : List Nat) : Option (Slice × Slice) := do
  let psz := tam_sl_cspan s delimiters
  let token ← tam_slice_upto s psz
  let suffix ← tam_slice_from s psz
  if token.len + suffix.len = s.len then
    let dlm := tam_sl_span suffix delimiters
    let rest ← tam_slice_from suffix dlm
    some (token, rest)
  else
    none

/-- Inner loop of tam_sl_find at position pos: bytes i < needle.len must
agree between needle[i] and haystack[pos + i].  Byte reads are modelled
with getD like tam_sl_idx; at every call site the indices are in bounds. -/
def findMatchAt (hb nb : List Nat) (nlen pos : Nat) : Bool :=
  (List.range nlen).all (fun i => hb.getD (pos + i) 0 == nb.getD i 0)

/-- Outer loop of tam_sl_find: try fuel successive positions starting at
pos, returning the first one with a full match.  The fuel is the exact
number of loop iterations the C for-loop performs. -/
def findFrom (hb nb : List Nat) (nlen : Nat) : Nat → Nat → Option Nat
  | _, 0 => none
  | pos, fuel + 1 =>
    if findMatchAt hb nb nlen pos then some pos
    else findFrom hb nb nlen (pos + 1) fuel

/-- Models tam_sl_find: for (pos = 0; pos <= haystack.len - needle.len;
pos++) scan for a full needle match, else return haystack.len.  The loop
bound is int arithmetic, so a needle longer than the haystack skips the
loop entirely. -/
def tam_sl_find (haystack needle : Slice) : Int :=
  if haystack.len - needle.len < 0 then haystack.len
  else
    match findFrom haystack.buf needle.buf needle.len.toNat 0
      ((haystack.len - needle.len).toNat + 1) with
    | some p => (p : Int)
    | none => haystack.len

/-! ## Growable vector (src/vector.h)

The C vector is a type-erased buffer with a hidden header
{ len, cap, elem_size }.  Elements are modelled directly (elem_size is
abstracted away; the byte-wise zero-fill of tam_vec_grow corresponds to
element-wise zero-fill).  data always has cap entries. -/

structure TamVec where
  len : Nat
  cap : Nat
  data : List Nat
deriving DecidableEq, Repr

/-- Models tamint__vec_alloc(len, cap, size): calloc gives a zeroed buffer
of cap elements behind the header. -/
def tamint__vec_alloc (len cap : Nat) : TamVec :=
  ⟨len, cap, List.replicate cap 0⟩

/-- Models name##_new(): capacity TAMINT__VECTOR_BASE_ALLOC = 8, length 0. -/
def tam_vec_new : TamVec := tamint__vec_alloc 0 8

/-- Models name##_newlen(len): length = capacity = len. -/
def tam_vec_newlen (len : Nat) : TamVec := tamint__vec_alloc len len

/-- Models tam_vec_grow.  The C computes
new_cap = (size_t)(header->cap * 1.618): the double product truncated
toward zero, modelled here as cap * 1618 / 1000 in exact arithmetic, which
agrees with the double computation for every capacity below 2^40.  realloc
preserves the old bytes; the loop then zeroes bytes from len*size up to
new_cap*size. -/
def tam_vec_grow (v : TamVec) : TamVec :=
  let newCap := v.cap * 1618 / 1000
  let grownData :=
    if v.len ≤ newCap then v.data.take v.len ++ List.replicate (newCap - v.len) 0
    else v.data.take newCap
  ⟨v.len, newCap, grownData⟩

/-- Models name##_push: grow when len >= cap, write the element at index
len, increment len.  (When the grown capacity still does not exceed len --
possible for capacities 0 and 1 -- the C write is out of bounds; the
modelled List.set is then a no-op.) -/
def tam_vec_push (v : TamVec) (elem : Nat) : TamVec :=
  let v1 := if v.len ≥ v.cap then tam_vec_grow v else v
  ⟨v1.len + 1, v1.cap, v1.data.set v1.len elem⟩

/-- Push a list of elements in order. -/
def tam_vec_pushAll (v : TamVec) (elems : List Nat) : TamVec :=
  elems.foldl tam_vec_push v

/-! ## Strings (src/string.h)

A tam_str is a char pointer whose length is stored in a hidden header just
before the data.  Modelled as { len, data } where data is the allocated
byte buffer after the header: len + 1 bytes, zero-initialized by calloc. -/

structure TamStr where
  len : Nat
  data : List Nat
deriving DecidableEq, Repr

/-- Models tam__stralloc(len): calloc(header + len + 1) zero bytes, header
length field = len; the trailing zero byte comes from the
zero-initialization, not an explicit write. -/
def tam__stralloc (len : Nat) : TamStr :=
  ⟨len, List.replicate (len + 1) 0⟩

/-- Models tam__strncpy(dst, src, n): copy the first n bytes of src over
the front of dst. -/
def tam__strncpy (dst src : List Nat) (n : Nat) : List Nat :=
  src.take n ++ dst.drop n

/-- Models tam__strnewlen(s, len): allocate then copy len bytes. -/
def tam__strnewlen (s : List Nat) (len : Nat) : TamStr :=
  let result := tam__stralloc len
  ⟨result.len, tam__strncpy result.data s len⟩

/-- Models tam_strlen: read the hidden header length field. -/
def tam_strlen (s : TamStr) : Nat := s.len

/-! ## Arena allocator (src/memory.h)

The arena is { beg, ptr, cap }.  The backing allocation is lazy but its
base address never changes after the first allocation, so the model fixes
the base address B from the start and keeps the cursor as the offset from
B.  Addresses are naturals.  tam_errorf terminates the process: none. -/

structure Arena where
  off : Nat
  cap : Nat
deriving DecidableEq, Repr

/-- Padding inserted by TAM_arena_allocate:
-(uintptr_t)ptr & (align - 1), for align a power of two this is the
distance from the pointer up to the next multiple of align, i.e.
(align - addr % align) % align. -/
def arenaPadding (addr align : Nat) : Nat :=
  (align - addr % align) % align

/-- Models TAM_arena_allocate with base address B.  Computes the padding
for the current cursor B + off, checks
available < 0 || count > available / size (int division) and reports a
fatal out-of-memory error (none) on failure; otherwise returns the aligned
address and advances the cursor by padding + count * size. -/
def TAM_arena_allocate (B : Nat) (a : Arena) (size align count : Nat) :
    Option (Nat × Arena) :=
  let padding := arenaPadding (B + a.off) align
  let available : Int := (a.cap : Int) - a.off - padding
  if available < 0 ∨ (count : Int) > available / size then none
  else some (B + a.off + padding, ⟨a.off + padding + count * size, a.cap⟩)

/-- One allocation request: element size, alignment, element count. -/
structure ArenaReq where
  size : Nat
  align : Nat
  count : Nat
deriving DecidableEq, Repr

/-- Run a sequence of allocation requests.  Each returned pair is the block
address and its size in bytes.  A fatal failure terminates the process, so
no further request runs. -/
def arenaRun (B : Nat) (a : Arena) : List ArenaReq → List (Nat × Nat)
  | [] => []
  | r :: rest =>
    match TAM_arena_allocate B a r.size r.align r.count with
    | none => []
    | some (p, a2) => (p, r.count * r.size) :: arenaRun B a2 rest

/-! ## Hash map (src/map.h)

tam_map is { count, capacity, entries } where each entry (tam_pair) has a
key (NULL marks an empty slot) and an opaque value.  Keys are tam_str
values, modelled here by their byte content (the bytes before the
terminating zero of the len+1-byte allocation); values are opaque
naturals.  The unterminated probe loop of find_entry is given fuel equal
to the capacity: the fuel visits every slot of the table once, and runs
out exactly when the C loop would cycle forever. -/

abbrev TamPair := Option (List Nat × Nat)

structure TamMap where
  count : Nat
  capacity : Nat
  entries : List TamPair
deriving DecidableEq, Repr

/-- Models tam_init_map. -/
def tam_init_map : TamMap := ⟨0, 0, []⟩

/-- Models hash_string: FNV-1a over the key bytes, seed 2166136261,
multiplier 16777619, 32-bit wraparound. -/
def hash_string (key : List Nat) : Nat :=
  key.foldl (fun h c => (Nat.xor h (c % 256)) * 16777619 % 2 ^ 32) 2166136261

/-- Models memcmp(key, entry->key, tam_strlen(key)) == 0.  The stored key
buffer holds its bytes followed by one zero byte; the comparison reads
strlen(key) bytes of it.  When the queried key is more than one byte
longer than the stored key the C read runs past the stored allocation;
the model compares against the truncated buffer, which is unequal. -/
def keyMemcmpEq (key stored : List Nat) : Bool :=
  (stored ++ [0]).take key.length == key

/-- Read entries[i]; out-of-range reads give an empty pair. -/
def entryAt (entries : List TamPair) (i : Nat) : TamPair :=
  entries.getD i none

/-- Probe loop of find_entry: at each index, an empty slot or a slot whose
reduced hash (hash mod capacity) and bytes match the key ends the probe;
otherwise continue at (index + 1) % capacity.  Fuel exhaustion models the
nonterminating C loop on a full table with no match. -/
def probeFind (entries : List TamPair) (capacity : Nat) (key : List Nat) :
    Nat → Nat → Option Nat
  | _, 0 => none
  | index, fuel + 1 =>
    match entryAt entries index with
    | none => some index
    | some (entryKey, _) =>
      if hash_string key % capacity == hash_string entryKey % capacity
          && keyMemcmpEq key entryKey then
        some index
      else
        probeFind entries capacity key ((index + 1) % capacity) fuel

/-- Models find_entry(entries, capacity, key): probe from
hash_string(key) % capacity.  Returns the index of the stopping slot. -/
def find_entry (entries : List TamPair) (capacity : Nat) (key : List Nat) :
    Option Nat :=
  probeFind entries capacity key (hash_string key % capacity) capacity

/-- Models the re-insertion loop of adjust_capacity: for i in
[0, count) the occupied old entries are probed into the fresh table.  The
loop bound is the map count, not the old capacity. -/
def rehash (oldEntries : List TamPair) (count newCapacity : Nat) :
    Option (List TamPair) :=
  (List.range count).foldlM
    (fun acc i =>
      match entryAt oldEntries i with
      | none => some acc
      | some pair =>
        match find_entry acc newCapacity pair.1 with
        | none => none
        | some dest => some (acc.set dest (some pair)))
    (List.replicate newCapacity none)

/-- Models adjust_capacity(map, capacity). -/
def adjust_capacity (m : TamMap) (capacity : Nat) : Option TamMap :=
  (rehash m.entries m.count capacity).map
    (fun entries => ⟨m.count, capacity, entries⟩)

/-- Models GROW_CAPACITY(x): x == 0 ? 8 : x * 2. -/
def GROW_CAPACITY (x : Nat) : Nat := if x = 0 then 8 else x * 2

/-- The load test map->count + 1 > map->capacity * MAP_MAX_LOAD with
MAP_MAX_LOAD = 0.75; exact for the capacities reached (multiples of 4),
modelled in integers as 4 * (count + 1) > 3 * capacity. -/
def mapNeedsGrow (count capacity : Nat) : Bool :=
  4 * (count + 1) > 3 * capacity

/-- Models tam_map_set: grow when the load factor would be exceeded, probe
for the key, count a new key, store key and value into the slot, and
return is_new_key. -/
def tam_map_set (m : TamMap) (key : List Nat) (val : Nat) :
    Option (Bool × TamMap) := do
  let m1 ←
    if mapNeedsGrow m.count m.capacity then
      adjust_capacity m (GROW_CAPACITY m.capacity)
    else
      some m
  let i ← find_entry m1.entries m1.capacity key
  let isNew := entryAt m1.entries i == none
  some (isNew,
    ⟨m1.count + (if isNew then 1 else 0), m1.capacity,
      m1.entries.set i (some (key, val))⟩)

/-- Models tam_map_get: false immediately when count == 0, otherwise probe
and report the value of an occupied stopping slot.  some none is a
returned false (value slot untouched), some (some v) a returned true with
the value written through the out pointer. -/
def tam_map_get (m : TamMap) (key : List Nat) : Option (Option Nat) :=
  if m.count = 0 then some none
  else do
    let i ← find_entry m.entries m.capacity key
    match entryAt m.entries i with
    | none => some none
    | some (_, v) => some (some v)

/-- Insert a list of key-value pairs in order, stopping (process death) on
a divergent set. -/
def tam_map_setAll (m : TamMap) : List (List Nat × Nat) → Option TamMap
  | [] => some m
  | (k, v) :: rest => do
    let (_, m2) ← tam_map_set m k v
    tam_map_setAll m2 rest

/-- The key sequence of the failing run: key_1 .. key_7 with values
1 .. 7. -/
def c1Keys : List (List Nat × Nat) :=
  [(strBytes "key_1", 1), (strBytes "key_2", 2), (strBytes "key_3", 3),
   (strBytes "key_4", 4), (strBytes "key_5", 5), (strBytes "key_6", 6),
   (strBytes "key_7", 7)]

/-- Bytes viewed by a slice: the first len bytes of its buffer. -/
def sliceBytes (s : Slice) : List Nat := s.buf.take s.len.toNat

/-- Repeated tokenization: apply tam_slice_tok n times, collecting the
byte content of each token and the final state of the mutated slice. -/
def tokenizeN (s : Slice) (dlm : List Nat) : Nat → Option (List (List Nat) × Slice)
  | 0 => some ([], s)
  | k + 1 => do
    let (t, s2) ← tam_slice_tok s dlm
    let (ts, s3) ← tokenizeN s2 dlm k
    some (sliceBytes t :: ts, s3)

/-- The haystack of the claimed find example. -/
def w17 : Slice := ⟨17, strBytes "word1 word2 word3" ++ [0]⟩

/-- The absent needle of the claimed find example. -/
def w5 : Slice := ⟨5, strBytes "word5" ++ [0]⟩

/-- Length of the leading non-delimiter run of the bytes of s. -/
def tokRunLen (s : Slice) (dlm : List Nat) : Nat :=
  ((sliceBytes s).takeWhile (fun b => !(dlm.contains b))).length

/-- Length of the delimiter run immediately following the leading
non-delimiter run of the bytes of s. -/
def tokDelimLen (s : Slice) (dlm : List Nat) : Nat :=
  (((sliceBytes s).drop (tokRunLen s dlm)).takeWhile
    (fun b => dlm.contains b)).length

/-- The tokenize test sentence of the repository, as a slice over its
null-terminated buffer. -/
def c8Sentence : Slice :=
  ⟨39, strBytes "a few words to check, with punctuation." ++ [0]⟩

/-- The tokenize test delimiters. -/
def c8Dlm : List Nat := strBytes ",. "

/-- The expected token contents: seven words, then the empty token. -/
def c8Tokens : List (List Nat) :=
  [strBytes "a", strBytes "few", strBytes "words", strBytes "to",
   strBytes "check", strBytes "with", strBytes "punctuation", []]

/-- An occurrence of the needle at position p of the haystack: the
needle fits and the slice contents agree byte for byte. -/
def OccAt (h n : Slice) (p : Nat) : Prop :=
  p + n.len.toNat ≤ h.len.toNat ∧
  ((sliceBytes h).drop p).take n.len.toNat = sliceBytes n

instance (h n : Slice) (p : Nat) : Decidable (OccAt h n p) := by
  unfold OccAt
  infer_instance

/-! ## Theorems -/

/-- C1: For every hash map, whenever set triggers a growth
(count + 1 > capacity * 0.75), every occupied entry of the old table is
rehashed into the new double-capacity table, so every key inserted before
the growth is still retrievable (get returns its stored value) after the
growth.  The code violates this: adjust_capacity iterates the old table
up to map->count instead of the old capacity, so occupied slots at index
>= count are dropped.  This theorem evaluates the code at the failing
input: after inserting key_1 .. key_6 into a fresh map, key_3 sits at
slot 6 of the 8-slot table and is retrievable; the 7th insert (key_7)
triggers the growth to capacity 16 with count 6, the rehash loop scans
only slots 0..5, and get(key_3) then returns false. -/
theorem c1_growth_loses_keys :
    (tam_map_setAll tam_init_map (c1Keys.take 6)).bind
        (fun m => tam_map_get m (strBytes "key_3")) = some (some 3) ∧
    (tam_map_setAll tam_init_map (c1Keys.take 6)).map
        (fun m => (m.count, m.capacity)) = some (6, 8) ∧
    (tam_map_setAll tam_init_map c1Keys).map
        (fun m => (m.count, m.capacity)) = some (7, 16) ∧
    (tam_map_setAll tam_init_map c1Keys).bind
        (fun m => tam_map_get m (strBytes "key_3")) = some none := by
  decide

/-- C5: For every map and every key already present in it, set(map, key,
value) returns false, leaves count unchanged, replaces only the value.
The code violates this whenever the set triggers a growth that drops the
key (the rehash loop of adjust_capacity stops at count, not capacity):
with key_1 .. key_6 inserted, key_3 is present (get returns 3) and count
is 6, yet set(key_3, 99) triggers the growth, key_3 is dropped from slot
6 of the old table, the probe then finds an empty slot, and the set
returns true with count incremented to 7. -/
theorem c5_reinsert_after_growth_drop :
    (tam_map_setAll tam_init_map (c1Keys.take 6)).bind
        (fun m => tam_map_get m (strBytes "key_3")) = some (some 3) ∧
    (tam_map_setAll tam_init_map (c1Keys.take 6)).map TamMap.count = some 6 ∧
    (tam_map_setAll tam_init_map (c1Keys.take 6)).bind
        (fun m => (tam_map_set m (strBytes "key_3") 99).map
          (fun r => (r.1, r.2.count))) = some (true, 7) := by
  decide

/-- C9: For every byte sequence b of length len, the string built by
from_bytes(b, len) has length len, its bytes equal b exactly, and the
byte at index len is the trailing zero from the calloc
zero-initialization. -/
theorem c9_from_bytes (b : List Nat) :
    tam_strlen (tam__strnewlen b b.length) = b.length ∧
    (tam__strnewlen b b.length).data = b ++ [0] ∧
    (tam__strnewlen b b.length).data.get? b.length = some 0 := by
  have hdata : (tam__strnewlen b b.length).data = b ++ [0] := by
    simp [tam__strnewlen, tam__stralloc, tam__strncpy, List.take_length,
      List.drop_replicate, List.replicate_one]
  refine ⟨rfl, hdata, ?_⟩
  rw [hdata]
  exact List.get?_concat_length b 0

/-- C10: For every haystack slice h (including the empty slice),
find(h, needle) with a needle of length 0 returns 0: the loop bound
haystack.len - 0 is nonnegative, and the inner comparison loop succeeds
vacuously at position 0. -/
theorem c10_find_empty_needle (h n : Slice) (hh : 0 ≤ h.len)
    (hn : n.len = 0) : tam_sl_find h n = 0 := by
  unfold tam_sl_find
  rw [hn]
  simp only [Int.sub_zero, Int.toNat_zero]
  rw [if_neg (by omega)]
  have : (h.len.toNat + 1) = h.len.toNat + 1 := rfl
  simp [findFrom, findMatchAt]

/-- C10 witness: the empty needle is found at index 0 even in the empty
haystack. -/
theorem c10_witness : tam_sl_find ⟨0, [0]⟩ ⟨0, [0]⟩ = 0 :=
  c10_find_empty_needle ⟨0, [0]⟩ ⟨0, [0]⟩ (by decide) (by decide)

/-- C2 counterexample: the claim states the growth target
max(8, floor(old_capacity * 1.618), needed_length) and the growth
sequence 8 -> 16.  The code computes (size_t)(cap * 1.618) with no max:
after 9 pushes starting from a fresh vector the capacity is 12, not 16,
and a push on a zero-capacity vector (from newlen(0)) grows the capacity
to 0, not to max(8, 0, 1) = 8. -/
theorem c2_counterexample :
    ((tam_vec_pushAll tam_vec_new [1, 2, 3, 4, 5, 6, 7, 8, 9]).cap = 12 ∧
      ¬ (tam_vec_pushAll tam_vec_new [1, 2, 3, 4, 5, 6, 7, 8, 9]).cap = 16) ∧
    ((tam_vec_push (tam_vec_newlen 0) 5).cap = 0 ∧
      ¬ (tam_vec_push (tam_vec_newlen 0) 5).cap = max 8 (max (0 * 1618 / 1000) 1)) := by
  decide

/-- C2 amended: on a push that would exceed capacity the backing store is
grown to (size_t)(old_capacity * 1.618) -- with no lower bound -- before
the write, and after 9 pushes starting from a fresh vector (new gives
capacity 8) the capacity is 12 >= 9: the growth sequence is 8 -> 12 as
soon as the count exceeds 8. -/
theorem c2_growth (v : TamVec) (x : Nat) (h : v.cap ≤ v.len) :
    ((tam_vec_push v x).cap = v.cap * 1618 / 1000 ∧
      (tam_vec_push v x).len = v.len + 1) ∧
    (∀ k, k ≤ 8 → (tam_vec_pushAll tam_vec_new (List.range k)).cap = 8) ∧
    (tam_vec_pushAll tam_vec_new (List.range 9)).cap = 12 ∧
    9 ≤ (tam_vec_pushAll tam_vec_new (List.range 9)).cap := by
  refine ⟨⟨?_, ?_⟩, by decide, by decide, by decide⟩
  · simp [tam_vec_push, tam_vec_grow, if_pos h]
  · simp [tam_vec_push, tam_vec_grow, if_pos h]

/-- C2 witness: a full vector of capacity 3 (newlen(3)) grows to
3 * 1618 / 1000 = 4 on the next push. -/
theorem c2_witness :
    ((tam_vec_push (tam_vec_newlen 3) 5).cap = 3 * 1618 / 1000 ∧
      (tam_vec_push (tam_vec_newlen 3) 5).len = 3 + 1) ∧
    (∀ k, k ≤ 8 → (tam_vec_pushAll tam_vec_new (List.range k)).cap = 8) ∧
    (tam_vec_pushAll tam_vec_new (List.range 9)).cap = 12 ∧
    9 ≤ (tam_vec_pushAll tam_vec_new (List.range 9)).cap :=
  c2_growth (tam_vec_newlen 3) 5 (by decide)

/-- C3 counterexample: the claim asserts
find("word1 word2 word3", "word5") == 18, calling 18 the haystack
length.  The haystack has 17 bytes and find returns 17, not 18. -/
theorem c3_counterexample :
    tam_sl_find w17 w5 = 17 ∧ w17.len = 17 ∧ ¬ tam_sl_find w17 w5 = 18 := by
  decide

/-- C4 counterexample: the claim says get returns true iff the table
holds an entry whose key content equals the queried key.  The code
compares only the reduced hashes and the first strlen(key) bytes: after
inserting only the key "abd" (slot 2 of the fresh 8-slot table,
hash_string("abd") mod 8 = hash_string("ab") mod 8 = 2), get on the
never-inserted key "ab" returns true and writes the value of "abd",
although no entry of the table is byte-equal to "ab". -/
theorem c4_counterexample :
    (tam_map_setAll tam_init_map [(strBytes "abd", 1)]).bind
        (fun m => tam_map_get m (strBytes "ab")) = some (some 1) ∧
    (tam_map_setAll tam_init_map [(strBytes "abd", 1)]).map
        (fun m => m.entries.all
          (fun e => match e with
            | none => true
            | some p => !(p.1 == strBytes "ab"))) = some true := by
  decide

/-- If the probe loop stops at slot i, that slot is either empty or
occupied by a key whose reduced hash equals that of the probed key and
whose first strlen(key) bytes equal the key. -/
theorem probeFind_stop_shape (entries : List TamPair) (cap : Nat)
    (key : List Nat) :
    ∀ fuel index i, probeFind entries cap key index fuel = some i →
      entryAt entries i = none ∨
      ∃ k v, entryAt entries i = some (k, v) ∧
        hash_string key % cap = hash_string k % cap ∧
        keyMemcmpEq key k = true := by
  intro fuel
  induction fuel with
  | zero => intro index i h; simp [probeFind] at h
  | succ n ih =>
    intro index i h
    rw [probeFind] at h
    rcases he : entryAt entries index with _ | ⟨pk, pv⟩
    · rw [he] at h
      exact Or.inl (Option.some.inj h ▸ he)
    · rw [he] at h
      dsimp only at h
      by_cases hm : (hash_string key % cap == hash_string pk % cap
          && keyMemcmpEq key pk) = true
      · rw [if_pos hm] at h
        simp only [Bool.and_eq_true] at hm
        obtain ⟨h1, h2⟩ := hm
        exact Or.inr ⟨pk, pv, Option.some.inj h ▸ he, eq_of_beq h1, h2⟩
      · rw [if_neg hm] at h
        exact ih ((index + 1) % cap) i h

/-- C4 amended: get(map, key, out_value) short-circuits to false when
count == 0; otherwise it probes from hash(key) mod capacity and returns
the value of the occupied slot the probe stops at (false at an empty
stopping slot).  The stopping slot, when occupied, holds a key whose
REDUCED hash (hash mod capacity) equals that of the queried key and whose
first strlen(key) bytes equal the queried key -- a prefix comparison
bounded by the query length, not byte-for-byte key equality, so a stored
key extending the queried key with a colliding reduced hash is also
reported found. -/
theorem c4_get_semantics (m : TamMap) (key : List Nat) :
    (m.count = 0 → tam_map_get m key = some none) ∧
    (m.count ≠ 0 → ∀ i, find_entry m.entries m.capacity key = some i →
      tam_map_get m key = some ((entryAt m.entries i).map Prod.snd) ∧
      ∀ k v, entryAt m.entries i = some (k, v) →
        hash_string key % m.capacity = hash_string k % m.capacity ∧
        keyMemcmpEq key k = true) := by
  constructor
  · intro h0
    simp [tam_map_get, h0]
  · intro h0 i hfind
    constructor
    · rw [tam_map_get, if_neg h0, Option.bind_eq_bind, hfind,
        Option.some_bind]
      cases he : entryAt m.entries i with
      | none => simp
      | some p => simp
    · intro k v he
      rcases probeFind_stop_shape m.entries m.capacity key m.capacity
          (hash_string key % m.capacity) i hfind with hempty | hocc
      · rw [he] at hempty; cases hempty
      · obtain ⟨k2, v2, he2, hh, hmem⟩ := hocc
        rw [he] at he2
        simp only [Option.some.injEq, Prod.mk.injEq] at he2
        obtain ⟨hk, hv⟩ := he2
        exact ⟨hk ▸ hh, hk ▸ hmem⟩

/-- getD distributes over drop by shifting the index. -/
theorem getD_drop (l : List Nat) (n m d : Nat) :
    (l.drop n).getD m d = l.getD (n + m) d := by
  simp [List.getD_eq_getElem?_getD, List.getElem?_drop]

/-- getD ignores a take that covers the index. -/
theorem getD_take (l : List Nat) (n m d : Nat) (h : m < n) :
    (l.take n).getD m d = l.getD m d := by
  simp [List.getD_eq_getElem?_getD, List.getElem?_take, h]

/-- Normalizing an index in [-len, len] succeeds with
j = i >= 0 ? i : len + i. -/
theorem tam_get_slice_index_in_range (i len : Int) (h1 : -len ≤ i)
    (h2 : i ≤ len) :
    tam_get_slice_index i len = some (if 0 ≤ i then i else len + i) := by
  simp only [tam_get_slice_index]
  split_ifs with ha hb hc <;> first | rfl | (exfalso; omega)

/-- Normalizing an index above len fails the assert. -/
theorem tam_get_slice_index_high (i len : Int) (h : len < i) :
    tam_get_slice_index i len = none := by
  simp only [tam_get_slice_index]
  split_ifs with ha hb hc <;> first | rfl | (exfalso; omega)

/-- Normalizing an index below -len fails the assert. -/
theorem tam_get_slice_index_low (i len : Int) (h : i < -len) :
    tam_get_slice_index i len = none := by
  simp only [tam_get_slice_index]
  split_ifs with ha hb hc <;> first | rfl | (exfalso; omega)

/-- Indexing by -1 and by len - 1 normalizes identically. -/
theorem tam_sl_idx_neg_one (s : Slice) :
    tam_sl_idx s (-1) = tam_sl_idx s (s.len - 1) := by
  have hnorm : tam_get_slice_index (-1) s.len
      = tam_get_slice_index (s.len - 1) s.len := by
    unfold tam_get_slice_index
    by_cases h2 : 0 ≤ s.len - 1
    · rw [if_neg (by omega : ¬ (0 ≤ (-1 : Int))), if_pos h2,
        (by omega : s.len + (-1) = s.len - 1)]
    · rw [if_neg (by omega : ¬ (0 ≤ (-1 : Int))), if_neg h2,
        if_neg (by omega : ¬ (0 ≤ s.len + (-1) ∧ s.len + (-1) ≤ s.len)),
        if_neg (by omega : ¬ (0 ≤ s.len + (s.len - 1) ∧
          s.len + (s.len - 1) ≤ s.len))]
  unfold tam_sl_idx
  rw [hnorm]

/-- C7: For every slice s, an index i in [-s.len, s.len] is normalized to
j = (i >= 0 ? i : s.len + i); any index above s.len or below -s.len
normalizes outside [0, s.len] and is a contract violation (the assert
fires, modelled by none); for normalized bounds a <= b,
reslice(s, a, b) has length b - a and its bytes equal the bytes of s in
[a, b); index -1 and index length - 1 select the identical byte. -/
theorem c7_slice_indexing (s : Slice) (i a b : Int)
    (hi1 : -s.len ≤ i) (hi2 : i ≤ s.len)
    (ha0 : 0 ≤ a) (hab : a ≤ b) (hbs : b ≤ s.len) :
    tam_get_slice_index i s.len = some (if 0 ≤ i then i else s.len + i) ∧
    (∀ i2 : Int, s.len < i2 → tam_get_slice_index i2 s.len = none) ∧
    (∀ i2 : Int, i2 < -s.len → tam_get_slice_index i2 s.len = none) ∧
    (∃ r, tam_reslice s a b = some r ∧ r.len = b - a ∧
      ∀ m : Int, 0 ≤ m → m < b - a → tam_sl_idx r m = tam_sl_idx s (a + m)) ∧
    tam_sl_idx s (-1) = tam_sl_idx s (s.len - 1) := by
  refine ⟨tam_get_slice_index_in_range i s.len hi1 hi2,
    fun i2 h => tam_get_slice_index_high i2 s.len h,
    fun i2 h => tam_get_slice_index_low i2 s.len h,
    ?_, tam_sl_idx_neg_one s⟩
  have hna : tam_get_slice_index a s.len = some a := by
    rw [tam_get_slice_index_in_range a s.len (by omega) (by omega),
      if_pos ha0]
  have hnb : tam_get_slice_index b s.len = some b := by
    rw [tam_get_slice_index_in_range b s.len (by omega) hbs,
      if_pos (by omega : (0 : Int) ≤ b)]
  refine ⟨⟨b - a, s.buf.drop a.toNat⟩, ?_, rfl, ?_⟩
  · simp only [tam_reslice, Option.bind_eq_bind, hna, Option.some_bind,
      hnb, if_pos hab]
  · intro m hm0 hmlt
    unfold tam_sl_idx
    rw [tam_get_slice_index_in_range m (b - a) (by omega) (by omega),
      if_pos hm0,
      tam_get_slice_index_in_range (a + m) s.len (by omega) (by omega),
      if_pos (by omega : (0 : Int) ≤ a + m)]
    simp only [Option.map_some']
    rw [getD_drop, (by omega : (a + m).toNat = a.toNat + m.toNat)]

/-- C7 witness: on the 5-byte slice of "Hello", index -2 normalizes to 3,
indices 6 and -6 are contract violations, reslice to [1, 3) has length 2
and views the same bytes, and indices -1 and 4 agree. -/
theorem c7_witness :
    tam_get_slice_index (-2) (5 : Int) =
      some (if 0 ≤ (-2 : Int) then (-2 : Int) else 5 + (-2)) ∧
    (∀ i2 : Int, (5 : Int) < i2 →
      tam_get_slice_index i2 5 = none) ∧
    (∀ i2 : Int, i2 < -(5 : Int) →
      tam_get_slice_index i2 5 = none) ∧
    (∃ r, tam_reslice ⟨5, strBytes "Hello" ++ [0]⟩ 1 3 = some r ∧
      r.len = 3 - 1 ∧
      ∀ m : Int, 0 ≤ m → m < 3 - 1 →
        tam_sl_idx r m = tam_sl_idx ⟨5, strBytes "Hello" ++ [0]⟩ (1 + m)) ∧
    tam_sl_idx ⟨5, strBytes "Hello" ++ [0]⟩ (-1) =
      tam_sl_idx ⟨5, strBytes "Hello" ++ [0]⟩ (5 - 1) :=
  c7_slice_indexing ⟨5, strBytes "Hello" ++ [0]⟩ (-2) 1 3 (by decide)
    (by decide) (by decide) (by decide) (by decide)

/-- Scanning a buffer with predicate P and clamping to len equals
scanning the first len bytes with predicate Q, whenever P and Q agree on
those bytes. -/
theorem takeWhile_clamp (P Q : Nat → Bool) :
    ∀ (buf : List Nat) (len : Nat), (∀ b ∈ buf.take len, P b = Q b) →
      min ((buf.takeWhile P).length) len = ((buf.take len).takeWhile Q).length := by
  intro buf
  induction buf with
  | nil => intro len _; simp
  | cons b rest ih =>
    intro len hpq
    cases len with
    | zero => simp
    | succ m =>
      have hb : P b = Q b := hpq b (by simp)
      have hrest : ∀ c ∈ rest.take m, P c = Q c :=
        fun c hc => hpq c (by simp [hc])
      cases hq : Q b with
      | true =>
        rw [List.take_succ_cons, List.takeWhile_cons, List.takeWhile_cons,
          hb, hq]
        simp [Nat.succ_min_succ, ih m hrest]
      | false =>
        rw [List.take_succ_cons, List.takeWhile_cons, List.takeWhile_cons,
          hb, hq]
        simp

/-- The takeWhile run is never longer than the list. -/
theorem takeWhile_length_le (p : Nat → Bool) :
    ∀ l : List Nat, (l.takeWhile p).length ≤ l.length := by
  intro l
  induction l with
  | nil => simp
  | cons b rest ih =>
    rw [List.takeWhile_cons]
    cases hp : p b with
    | true => simpa using ih
    | false => simp

/-- A list is unchanged by taking the length of its takeWhile run. -/
theorem take_takeWhile_length (p : Nat → Bool) :
    ∀ l : List Nat, l.take ((l.takeWhile p).length) = l.takeWhile p := by
  intro l
  induction l with
  | nil => simp
  | cons b rest ih =>
    rw [List.takeWhile_cons]
    cases hp : p b with
    | true => simp [ih]
    | false => simp

/-- tam_sl_cspan on a null-free slice counts the leading bytes of the
slice content outside reject. -/
theorem tam_sl_cspan_eq (s : Slice) (dlm : List Nat) (h0 : 0 ≤ s.len)
    (hnz : ∀ b ∈ sliceBytes s, b ≠ 0) :
    tam_sl_cspan s dlm = (tokRunLen s dlm : Int) := by
  have hmin := takeWhile_clamp (fun b => !(b == 0) && !(dlm.contains b))
    (fun b => !(dlm.contains b)) s.buf s.len.toNat
    (by
      intro b hb
      have hbnz : b ≠ 0 := hnz b hb
      simp [hbnz])
  simp only [tam_sl_cspan, cspnBuf, tokRunLen, sliceBytes]
  by_cases hgt : ((s.buf.takeWhile
      (fun b => !(b == 0) && !(dlm.contains b))).length : Int) > s.len
  · rw [if_pos hgt]
    omega
  · rw [if_neg hgt]
    omega

/-- tam_sl_span counts the leading bytes of the slice content inside
accept. -/
theorem tam_sl_span_eq (s : Slice) (dlm : List Nat) (h0 : 0 ≤ s.len) :
    tam_sl_span s dlm
      = (((sliceBytes s).takeWhile (fun b => dlm.contains b)).length : Int) := by
  have hmin := takeWhile_clamp (fun b => dlm.contains b)
    (fun b => dlm.contains b) s.buf s.len.toNat (fun b _ => rfl)
  simp only [tam_sl_span, spnBuf, sliceBytes]
  by_cases hgt : ((s.buf.takeWhile (fun b => dlm.contains b)).length : Int) > s.len
  · rw [if_pos hgt]
    omega
  · rw [if_neg hgt]
    omega

/-- tam_slice_upto at a nonnegative in-range position. -/
theorem tam_slice_upto_eq (s : Slice) (t : Nat) (h : (t : Int) ≤ s.len) :
    tam_slice_upto s t = some ⟨t, s.buf⟩ := by
  unfold tam_slice_upto
  rw [tam_get_slice_index_in_range t s.len (by omega) h,
    if_pos (by omega : (0 : Int) ≤ t)]
  rfl

/-- tam_slice_from at a nonnegative in-range position. -/
theorem tam_slice_from_eq (s : Slice) (t : Nat) (h : (t : Int) ≤ s.len) :
    tam_slice_from s t = some ⟨s.len - t, s.buf.drop t⟩ := by
  unfold tam_slice_from
  rw [tam_get_slice_index_in_range t s.len (by omega) h,
    if_pos (by omega : (0 : Int) ≤ t)]
  simp

/-- tam_slice_tok on a null-free slice: the token is the leading
non-delimiter run, and the input slice is advanced past that run and
past the immediately following delimiter run. -/
theorem tam_slice_tok_eq (s : Slice) (dlm : List Nat) (h0 : 0 ≤ s.len)
    (hnz : ∀ b ∈ sliceBytes s, b ≠ 0) :
    tam_slice_tok s dlm =
      some (⟨tokRunLen s dlm, s.buf⟩,
        ⟨s.len - tokRunLen s dlm - tokDelimLen s dlm,
         s.buf.drop (tokRunLen s dlm + tokDelimLen s dlm)⟩) := by
  have hlen1 : (sliceBytes s).length ≤ s.len.toNat := by
    simp only [sliceBytes, List.length_take]
    exact min_le_left _ _
  have hts : tokRunLen s dlm ≤ s.len.toNat := by
    have h1 : tokRunLen s dlm ≤ (sliceBytes s).length :=
      takeWhile_length_le _ _
    omega
  have htle : (tokRunLen s dlm : Int) ≤ s.len := by omega
  have hsufbytes : sliceBytes ⟨s.len - tokRunLen s dlm,
      s.buf.drop (tokRunLen s dlm)⟩ = (sliceBytes s).drop (tokRunLen s dlm) := by
    simp only [sliceBytes]
    rw [(by omega : (s.len - tokRunLen s dlm).toNat
      = s.len.toNat - tokRunLen s dlm), List.drop_take]
  have hds : tokDelimLen s dlm ≤ s.len.toNat - tokRunLen s dlm := by
    have h1 : tokDelimLen s dlm ≤ ((sliceBytes s).drop (tokRunLen s dlm)).length :=
      takeWhile_length_le _ _
    have h2 : ((sliceBytes s).drop (tokRunLen s dlm)).length
        = (sliceBytes s).length - tokRunLen s dlm := List.length_drop _ _
    omega
  have hspan : tam_sl_span ⟨s.len - tokRunLen s dlm,
      s.buf.drop (tokRunLen s dlm)⟩ dlm = (tokDelimLen s dlm : Int) := by
    rw [tam_sl_span_eq _ dlm (by simp only; omega), hsufbytes]
    rfl
  simp only [tam_slice_tok, tam_sl_cspan_eq s dlm h0 hnz,
    tam_slice_upto_eq s (tokRunLen s dlm) htle,
    tam_slice_from_eq s (tokRunLen s dlm) htle,
    Option.bind_eq_bind, Option.some_bind]
  rw [if_pos (by omega : (tokRunLen s dlm : Int)
    + (s.len - tokRunLen s dlm) = s.len)]
  simp only [hspan,
    tam_slice_from_eq ⟨s.len - tokRunLen s dlm, s.buf.drop (tokRunLen s dlm)⟩
      (tokDelimLen s dlm) (by simp only; omega),
    Option.some_bind]
  rw [List.drop_drop]

/-- C8: tokenize splits off the leading run of non-delimiter bytes as
the returned token and advances the slice past that run and past any
immediately following delimiter bytes; an empty slice is a terminal,
idempotent state yielding the empty token forever; and on the test
sentence with delimiters ",. " the successive tokens are the seven words
followed by the empty token, with the slice length reaching 0. -/
theorem c8_tokenize (s : Slice) (dlm : List Nat) (h0 : 0 ≤ s.len)
    (hnz : ∀ b ∈ sliceBytes s, b ≠ 0) :
    (tam_slice_tok s dlm =
      some (⟨tokRunLen s dlm, s.buf⟩,
        ⟨s.len - tokRunLen s dlm - tokDelimLen s dlm,
         s.buf.drop (tokRunLen s dlm + tokDelimLen s dlm)⟩)) ∧
    sliceBytes ⟨tokRunLen s dlm, s.buf⟩
      = (sliceBytes s).takeWhile (fun b => !(dlm.contains b)) ∧
    (∀ u : Slice, u.len = 0 →
      tam_slice_tok u dlm = some (⟨0, u.buf⟩, ⟨0, u.buf⟩)) ∧
    (tokenizeN c8Sentence c8Dlm 8).map (fun r => (r.1, r.2.len))
      = some (c8Tokens, 0) := by
  refine ⟨tam_slice_tok_eq s dlm h0 hnz, ?_, ?_, by decide⟩
  · have hbound : tokRunLen s dlm ≤ s.len.toNat := by
      have h1 : tokRunLen s dlm ≤ (sliceBytes s).length :=
        takeWhile_length_le _ _
      have h2 : (sliceBytes s).length ≤ s.len.toNat := by
        simp only [sliceBytes, List.length_take]
        exact min_le_left _ _
      omega
    have hrw := take_takeWhile_length (fun b => !(dlm.contains b)) (sliceBytes s)
    calc sliceBytes ⟨tokRunLen s dlm, s.buf⟩
        = s.buf.take (tokRunLen s dlm) := by
          simp [sliceBytes]
      _ = (s.buf.take s.len.toNat).take (tokRunLen s dlm) := by
          rw [List.take_take, (by omega : min (tokRunLen s dlm) s.len.toNat
            = tokRunLen s dlm)]
      _ = (sliceBytes s).take (tokRunLen s dlm) := rfl
      _ = (sliceBytes s).takeWhile (fun b => !(dlm.contains b)) := hrw
  · intro u hu
    have h0u : (0 : Int) ≤ u.len := by omega
    have hnzu : ∀ b ∈ sliceBytes u, b ≠ 0 := by
      intro b hb
      rw [sliceBytes, hu] at hb
      simp at hb
    have := tam_slice_tok_eq u dlm h0u hnzu
    have htr : tokRunLen u dlm = 0 := by
      rw [tokRunLen, sliceBytes, hu]
      simp
    have htd : tokDelimLen u dlm = 0 := by
      rw [tokDelimLen, sliceBytes, hu]
      simp
    rw [this, htr, htd, hu]
    norm_num

/-- C8 witness: on the test sentence the first token is the single byte
"a" and the slice advances past "a " to the remaining 37 bytes. -/
theorem c8_witness :
    tam_slice_tok c8Sentence c8Dlm =
      some (⟨tokRunLen c8Sentence c8Dlm, c8Sentence.buf⟩,
        ⟨c8Sentence.len - tokRunLen c8Sentence c8Dlm
            - tokDelimLen c8Sentence c8Dlm,
         c8Sentence.buf.drop (tokRunLen c8Sentence c8Dlm
            + tokDelimLen c8Sentence c8Dlm)⟩) :=
  (c8_tokenize c8Sentence c8Dlm (by decide) (by decide)).1

/-- Two lists of equal length are equal iff they agree at every getD. -/
theorem list_eq_iff_getD (l1 l2 : List Nat) (hlen : l1.length = l2.length) :
    l1 = l2 ↔ ∀ i, i < l1.length → l1.getD i 0 = l2.getD i 0 := by
  constructor
  · intro he i _
    rw [he]
  · intro hp
    refine List.ext_getElem hlen ?_
    intro i hi1 hi2
    have := hp i hi1
    rwa [List.getD_eq_getElem l1 0 hi1, List.getD_eq_getElem l2 0 hi2] at this

/-- The inner comparison loop of find agrees with slice content equality
at in-range positions. -/
theorem findMatchAt_iff_occ (h n : Slice)
    (hbh : h.len.toNat ≤ h.buf.length) (hbn : n.len.toNat ≤ n.buf.length)
    (p : Nat) (hp : p + n.len.toNat ≤ h.len.toNat) :
    findMatchAt h.buf n.buf n.len.toNat p = true ↔ OccAt h n p := by
  have hA : (((sliceBytes h).drop p).take n.len.toNat).length = n.len.toNat := by
    simp only [List.length_take, List.length_drop, sliceBytes]
    omega
  have hB : (sliceBytes n).length = n.len.toNat := by
    simp only [sliceBytes, List.length_take]
    omega
  have hgetA : ∀ i, i < n.len.toNat →
      (((sliceBytes h).drop p).take n.len.toNat).getD i 0
        = h.buf.getD (p + i) 0 := by
    intro i hi
    rw [getD_take _ _ _ _ hi, getD_drop]
    simp only [sliceBytes]
    rw [getD_take _ _ _ _ (by omega)]
  have hgetB : ∀ i, i < n.len.toNat →
      (sliceBytes n).getD i 0 = n.buf.getD i 0 := by
    intro i hi
    simp only [sliceBytes]
    rw [getD_take _ _ _ _ hi]
  unfold findMatchAt
  rw [List.all_eq_true]
  unfold OccAt
  constructor
  · intro hall
    refine ⟨hp, ?_⟩
    rw [list_eq_iff_getD _ _ (by omega)]
    intro i hi
    rw [hA] at hi
    have := hall i (List.mem_range.mpr hi)
    rw [hgetA i hi, hgetB i hi]
    exact eq_of_beq this
  · intro ⟨_, heq⟩
    intro i hi
    have hi2 : i < n.len.toNat := List.mem_range.mp hi
    have := (list_eq_iff_getD _ _ (by omega)).mp heq i (by omega)
    rw [hgetA i hi2, hgetB i hi2] at this
    exact beq_iff_eq.mpr this

/-- When no position in the scanned window matches, the outer loop of
find runs out. -/
theorem findFrom_none (hb nb : List Nat) (nlen : Nat) :
    ∀ fuel pos, (∀ q, pos ≤ q → q < pos + fuel →
      findMatchAt hb nb nlen q = false) →
    findFrom hb nb nlen pos fuel = none := by
  intro fuel
  induction fuel with
  | zero => intro pos _; rfl
  | succ m ih =>
    intro pos hnone
    rw [findFrom, hnone pos (le_refl pos) (by omega)]
    exact ih (pos + 1) (fun q h1 h2 => hnone q (by omega) (by omega))

/-- The outer loop of find returns the first matching position of its
window. -/
theorem findFrom_first (hb nb : List Nat) (nlen : Nat) :
    ∀ fuel pos p, pos ≤ p → p < pos + fuel →
      findMatchAt hb nb nlen p = true →
      (∀ q, pos ≤ q → q < p → findMatchAt hb nb nlen q = false) →
      findFrom hb nb nlen pos fuel = some p := by
  intro fuel
  induction fuel with
  | zero => intro pos p h1 h2 _ _; omega
  | succ m ih =>
    intro pos p h1 h2 hmatch hbefore
    rcases Nat.eq_or_lt_of_le h1 with heq | hlt
    · subst heq
      rw [findFrom, hmatch]
      simp
    · rw [findFrom, hbefore pos (le_refl pos) hlt]
      exact ih (pos + 1) p (by omega) (by omega) hmatch
        (fun q hq1 hq2 => hbefore q (by omega) hq2)

/-- C3 amended: find(haystack, needle) returns the starting index of the
first occurrence of needle in haystack and returns haystack.len when the
needle is absent; in particular on "word1 word2 word3" the absent needle
"word5" yields 17, the haystack length. -/
theorem c3_find_first_occurrence (h n : Slice)
    (hh : 0 ≤ h.len) (hn : 0 ≤ n.len)
    (hbh : h.len.toNat ≤ h.buf.length) (hbn : n.len.toNat ≤ n.buf.length) :
    ((∀ p, ¬ OccAt h n p) → tam_sl_find h n = h.len) ∧
    (∀ p, OccAt h n p → (∀ q, q < p → ¬ OccAt h n q) →
      tam_sl_find h n = (p : Int)) ∧
    tam_sl_find w17 w5 = 17 ∧ w17.len = 17 := by
  by_cases hcase : h.len - n.len < 0
  · refine ⟨?_, ?_, by decide, by decide⟩
    · intro _
      rw [tam_sl_find, if_pos hcase]
    · intro p hocc _
      exfalso
      obtain ⟨hfit, _⟩ := hocc
      omega
  · have hwin : (h.len - n.len).toNat = h.len.toNat - n.len.toNat := by omega
    refine ⟨?_, ?_, by decide, by decide⟩
    · intro habsent
      rw [tam_sl_find, if_neg hcase,
        findFrom_none h.buf n.buf n.len.toNat _ 0 ?_]
      intro q _ hq
      by_contra hne
      have hq2 : q + n.len.toNat ≤ h.len.toNat := by omega
      have := (findMatchAt_iff_occ h n hbh hbn q hq2).mp
        (Bool.of_not_eq_false hne)
      exact habsent q this
    · intro p hocc hfirst
      rw [tam_sl_find, if_neg hcase,
        findFrom_first h.buf n.buf n.len.toNat _ 0 p (Nat.zero_le p) ?_ ?_ ?_]
      · have hfit := hocc.1
        omega
      · exact (findMatchAt_iff_occ h n hbh hbn p hocc.1).mpr hocc
      · intro q _ hq
        by_contra hne
        have hq2 : q + n.len.toNat ≤ h.len.toNat := by
          have := hocc.1
          omega
        have := (findMatchAt_iff_occ h n hbh hbn q hq2).mp
          (Bool.of_not_eq_false hne)
        exact hfirst q hq this

/-- C3 witness: "world!" first occurs at index 7 of "Hello, world!". -/
theorem c3_witness :
    tam_sl_find ⟨13, strBytes "Hello, world!" ++ [0]⟩
      ⟨6, strBytes "world!" ++ [0]⟩ = (7 : Int) :=
  (c3_find_first_occurrence ⟨13, strBytes "Hello, world!" ++ [0]⟩
      ⟨6, strBytes "world!" ++ [0]⟩ (by decide) (by decide) (by decide)
      (by decide)).2.1 7 (by decide) (by decide)

/-- The padding never reaches a full alignment unit. -/
theorem arenaPadding_lt (x align : Nat) (h : 1 ≤ align) :
    arenaPadding x align < align :=
  Nat.mod_lt _ h

/-- Adding the padding aligns the address to a multiple of align. -/
theorem arenaPadding_aligns (x align : Nat) (h : 1 ≤ align) :
    (x + arenaPadding x align) % align = 0 := by
  unfold arenaPadding
  by_cases hr : x % align = 0
  · rw [hr]
    simp [Nat.add_mod, hr, Nat.sub_zero, Nat.mod_self]
  · have hlt : x % align < align := Nat.mod_lt _ h
    have h1 : (align - x % align) % align = align - x % align :=
      Nat.mod_eq_of_lt (by omega)
    rw [h1, Nat.add_mod, h1,
      (by omega : x % align + (align - x % align) = align), Nat.mod_self]

/-- The fatal-failure test of TAM_arena_allocate
(available < 0 || count > available / size) holds exactly when the padded
request does not fit in the remaining capacity; on success the cursor
advances by padding + count * size. -/
theorem TAM_arena_allocate_eq (B : Nat) (a : Arena) (size align count : Nat)
    (hs : 1 ≤ size) :
    TAM_arena_allocate B a size align count =
      if a.off + arenaPadding (B + a.off) align + count * size ≤ a.cap
      then some (B + a.off + arenaPadding (B + a.off) align,
        ⟨a.off + arenaPadding (B + a.off) align + count * size, a.cap⟩)
      else none := by
  unfold TAM_arena_allocate
  have hs0 : (0 : Int) < (size : Nat) := by exact_mod_cast hs
  have hdiv := Int.le_ediv_iff_mul_le
    (a := (count : Int))
    (b := (a.cap : Int) - a.off - arenaPadding (B + a.off) align) hs0
  by_cases hc : a.off + arenaPadding (B + a.off) align + count * size ≤ a.cap
  · rw [if_pos hc, if_neg]
    intro hbad
    rcases hbad with hneg | hgt
    · have : (0 : Int) ≤ (a.cap : Int) - a.off - arenaPadding (B + a.off) align := by
        omega
      omega
    · have hle : (count : Int) ≤
          ((a.cap : Int) - a.off - arenaPadding (B + a.off) align) / size := by
        apply hdiv.mpr
        push_cast at hc
        nlinarith
      omega
  · rw [if_neg hc]
    rw [if_pos]
    by_cases h0 : (a.cap : Int) - a.off - arenaPadding (B + a.off) align < 0
    · exact Or.inl h0
    · refine Or.inr ?_
      have hgt : ¬ ((count : Int) * size ≤
          (a.cap : Int) - a.off - arenaPadding (B + a.off) align) := by
        push_cast at hc
        omega
      have := hdiv.not.mpr hgt
      omega

/-- Every block handed out by a run of allocations lies between the
starting cursor and the end of the backing buffer, and the blocks are
returned in strictly advancing, non-overlapping order. -/
theorem arenaRun_sound (B : Nat) :
    ∀ (reqs : List ArenaReq) (a : Arena),
      (∀ r ∈ reqs, 1 ≤ r.size) →
      (∀ pb ∈ arenaRun B a reqs, B + a.off ≤ pb.1 ∧ pb.1 + pb.2 ≤ B + a.cap) ∧
      (arenaRun B a reqs).Pairwise (fun x y => x.1 + x.2 ≤ y.1) := by
  intro reqs
  induction reqs with
  | nil => intro a _; simp [arenaRun]
  | cons r rest ih =>
    intro a hsz
    have hr : 1 ≤ r.size := hsz r (List.mem_cons_self r rest)
    have hrest : ∀ q ∈ rest, 1 ≤ q.size :=
      fun q hq => hsz q (List.mem_cons_of_mem r hq)
    rw [arenaRun, TAM_arena_allocate_eq B a r.size r.align r.count hr]
    by_cases hc : a.off + arenaPadding (B + a.off) r.align + r.count * r.size ≤ a.cap
    · rw [if_pos hc]
      obtain ⟨ihb, ihp⟩ :=
        ih ⟨a.off + arenaPadding (B + a.off) r.align + r.count * r.size, a.cap⟩ hrest
      constructor
      · intro pb hpb
        rcases List.mem_cons.mp hpb with hhead | htail
        · rw [hhead]
          refine ⟨by omega, ?_⟩
          simp only
          omega
        · have := ihb pb htail
          simp only at this
          exact ⟨by omega, this.2⟩
      · refine List.Pairwise.cons ?_ ihp
        intro pb hpb
        have := (ihb pb hpb).1
        simp only at this
        omega
    · rw [if_neg hc]
      simp [List.Pairwise.nil]

/-- C6: For every arena and every sequence of allocate calls, each call
whose padded request fits in the remaining capacity returns a pointer
aligned to the requested alignment whose count * elem_size bytes lie
inside the backing buffer, the cursor advances to the end of the block,
and the blocks of a run are pairwise non-overlapping (each ends at or
before the next begins) and contained in [B, B + capacity); a request
whose padding + count * elem_size exceeds the remaining capacity reports
a fatal out-of-memory error (none: the process dies), leaving nothing
allocated -- no truncation, no wraparound. -/
theorem c6_arena (B : Nat) (a : Arena) (size align count : Nat)
    (hs : 1 ≤ size) (ha : 1 ≤ align)
    (reqs : List ArenaReq) (hreqs : ∀ r ∈ reqs, 1 ≤ r.size) :
    (a.off + arenaPadding (B + a.off) align + count * size ≤ a.cap →
      ∃ p a2, TAM_arena_allocate B a size align count = some (p, a2) ∧
        p % align = 0 ∧ B + a.off ≤ p ∧ p + count * size = B + a2.off ∧
        a2.off ≤ a.cap ∧ a2.cap = a.cap) ∧
    (a.cap < a.off + arenaPadding (B + a.off) align + count * size →
      TAM_arena_allocate B a size align count = none) ∧
    (∀ pb ∈ arenaRun B a reqs, B + a.off ≤ pb.1 ∧ pb.1 + pb.2 ≤ B + a.cap) ∧
    (arenaRun B a reqs).Pairwise (fun x y => x.1 + x.2 ≤ y.1) := by
  obtain ⟨hrun1, hrun2⟩ := arenaRun_sound B reqs a hreqs
  refine ⟨?_, ?_, hrun1, hrun2⟩
  · intro hfit
    rw [TAM_arena_allocate_eq B a size align count hs, if_pos hfit]
    refine ⟨B + a.off + arenaPadding (B + a.off) align, _, rfl, ?_, by omega,
      by simp only; omega, by simp only; omega, rfl⟩
    have := arenaPadding_aligns (B + a.off) align ha
    omega
  · intro hover
    rw [TAM_arena_allocate_eq B a size align count hs, if_neg (by omega)]

/-- C6 witness: an arena of 16 bytes based at address 101; an aligned
8-byte request fits at address 104 (padding 3), an oversized request
fails fatally, and a two-request run yields in-bounds non-overlapping
blocks. -/
theorem c6_witness :
    ((⟨0, 16⟩ : Arena).off + arenaPadding (101 + (⟨0, 16⟩ : Arena).off) 4 +
        2 * 4 ≤ (⟨0, 16⟩ : Arena).cap →
      ∃ p a2, TAM_arena_allocate 101 ⟨0, 16⟩ 4 4 2 = some (p, a2) ∧
        p % 4 = 0 ∧ 101 + (⟨0, 16⟩ : Arena).off ≤ p ∧
        p + 2 * 4 = 101 + a2.off ∧ a2.off ≤ (⟨0, 16⟩ : Arena).cap ∧
        a2.cap = (⟨0, 16⟩ : Arena).cap) ∧
    ((⟨0, 16⟩ : Arena).cap < (⟨0, 16⟩ : Arena).off +
        arenaPadding (101 + (⟨0, 16⟩ : Arena).off) 4 + 2 * 4 →
      TAM_arena_allocate 101 ⟨0, 16⟩ 4 4 2 = none) ∧
    (∀ pb ∈ arenaRun 101 ⟨0, 16⟩ [⟨4, 4, 2⟩, ⟨1, 1, 3⟩],
      101 + (⟨0, 16⟩ : Arena).off ≤ pb.1 ∧
      pb.1 + pb.2 ≤ 101 + (⟨0, 16⟩ : Arena).cap) ∧
    (arenaRun 101 ⟨0, 16⟩ [⟨4, 4, 2⟩, ⟨1, 1, 3⟩]).Pairwise
      (fun x y => x.1 + x.2 ≤ y.1) :=
  c6_arena 101 ⟨0, 16⟩ 4 4 2 (by decide) (by decide) [⟨4, 4, 2⟩, ⟨1, 1, 3⟩]
    (by decide)

/-- C4 witness: in the one-entry map holding "abd" at slot 2, the probe
for "ab" stops at slot 2 and get returns the stored value 1. -/
theorem c4_witness :
    tam_map_get ⟨1, 8, [none, none, some (strBytes "abd", 1), none, none,
        none, none, none]⟩ (strBytes "ab") =
      some ((entryAt [none, none, some (strBytes "abd", 1), none, none,
        none, none, none] 2).map Prod.snd) :=
  ((c4_get_semantics ⟨1, 8, [none, none, some (strBytes "abd", 1), none,
      none, none, none, none]⟩ (strBytes "ab")).2
    (by decide) 2 (by decide)).1
